import Mathlib

/-!
Verification of the dissolve batch-compression engine.

This file gives a shallow embedding of the fragmenter
(`splitLargeImagesIntoFragments`), the thread manager's chunking
(`chunkFiles`) and result aggregation (`accumulateThreadResults`), the
adaptive compression engine's target-size binary search
(`binarySearchQuality` and its buffer variant), the extreme-path strategy
selection (`selectBestResult`, `extremeCompressionParallel`), the
auto-format race (`findBestFormat`), the PNG configuration ladder
(`optimizePNG`), the worker runtime chunk loop (`processChunk`) with the
pool's message handling, and the `compress` entry validation
(`parseTargetSize`, `validateSingleFileTarget`).

Encoders are abstracted as functions from parameters to output sizes,
buffers are identified by their sizes, and JavaScript number arithmetic is
rendered with exact `Nat`/`Int`/`ℚ` arithmetic.
-/

/-! ## Fragmenter (threadManagerFragmentation) -/

/-- Extensions eligible for fragmentation. -/
def imageExts : List String :=
  [".jpg", ".jpeg", ".png", ".webp", ".avif", ".bmp", ".tiff"]

/-- Size threshold (100 MiB) below which files pass through unchanged. -/
def MIN_FRAGMENT_SIZE : Nat := 100 * 1024 * 1024

/-- Minimum fragment count. -/
def MIN_FRAGMENTS : Nat := 2

/-- An input file as the fragmenter sees it: extension, `fs.stat` size and
the sharp metadata dimensions (0 when the metadata is missing, mirroring
`metadata.height ?? 0`). -/
structure ImageFile where
  ext : String
  size : Nat
  height : Nat
  width : Nat
deriving DecidableEq

/-- The extract region of one fragment: `top` row and band height as passed
to `sharp.extract`. The height is an integer because the source computes
`imageHeight - top`, which can be negative. -/
structure Band where
  top : Nat
  height : Int
deriving DecidableEq

/-- Row `r` lies in the band's half-open row range `[top, top + height)`. -/
def bandContains (b : Band) (r : Nat) : Prop :=
  b.top ≤ r ∧ (r : Int) < (b.top : Int) + b.height

instance (b : Band) (r : Nat) : Decidable (bandContains b r) := by
  unfold bandContains; infer_instance

/-- `Math.floor(imageHeight / fragments) || imageHeight`: the JS `||`
replaces a zero quotient with the full image height. -/
def fragmentHeight (imageHeight fragments : Nat) : Nat :=
  if imageHeight / fragments = 0 then imageHeight else imageHeight / fragments

/-- One element of the fragmenter's output: a file passed through
unchanged, or one extracted fragment tagged with its position. -/
inductive FragmentResult where
  | pass (file : ImageFile)
  | frag (originalFile : ImageFile) (band : Band)
      (fragmentIndex totalFragments : Nat) (ext : String)
deriving DecidableEq

/-- The per-file body of the `splitLargeImagesIntoFragments` loop. -/
def splitOneFile (file : ImageFile) (threadCount : Nat) : List FragmentResult :=
  if file.ext ∉ imageExts then [.pass file]
  else if file.size < MIN_FRAGMENT_SIZE then [.pass file]
  else
    let fragments := max MIN_FRAGMENTS threadCount
    if file.height = 0 ∨ file.width = 0 then [.pass file]
    else
      let fh := fragmentHeight file.height fragments
      (List.range fragments).map fun i =>
        .frag file
          { top := i * fh
            height :=
              if i = fragments - 1 then (file.height : Int) - ((i * fh : Nat) : Int)
              else (fh : Int) }
          i fragments file.ext

/-- `splitLargeImagesIntoFragments(files, threadCount)`. -/
def splitLargeImagesIntoFragments (files : List ImageFile) (threadCount : Nat) :
    List FragmentResult :=
  files.flatMap (fun f => splitOneFile f threadCount)

/-- The extract bands of the fragments in a fragmenter output. -/
def fragBandsOf (rs : List FragmentResult) : List Band :=
  rs.filterMap fun r =>
    match r with
    | .frag _ b _ _ _ => some b
    | .pass _ => none

/-- The band of fragment `i` under the claimed arithmetic
`bandHeight = floor(imageHeight / fragmentCount)` with the last band
absorbing the remainder `imageHeight - i * bandHeight`. -/
def bandAt (imageHeight fragments i : Nat) : Band :=
  { top := i * (imageHeight / fragments)
    height :=
      if i = fragments - 1 then
        (imageHeight : Int) - ((i * (imageHeight / fragments) : Nat) : Int)
      else ((imageHeight / fragments : Nat) : Int) }

/-! ## Binary search to target size (imageCompressor) -/

/-- The loop of `binarySearchQuality`: state is `(minQ, maxQ, bestBuffer)`,
the fuel is the remaining attempts (`maxAttempts - attempts`).  A buffer is
identified by the quality it was encoded at; `enc q` is the resulting byte
size.  Returns the best-so-far quality, `none` when no tested quality fit. -/
def bsRun (enc : Nat → Nat) (target : Nat) : Nat → Nat → Option Nat → Nat → Option Nat
  | _, _, best, 0 => best
  | lo, hi, best, fuel + 1 =>
    if lo ≤ hi then
      let q := (lo + hi) / 2
      if enc q ≤ target then bsRun enc target (q + 1) hi (some q) fuel
      else bsRun enc target lo (q - 1) best fuel
    else best

/-- `binarySearchQuality`: bounds `[5, 95]`, at most 15 attempts. -/
def binarySearchQuality (enc : Nat → Nat) (target : Nat) : Option Nat :=
  bsRun enc target 5 95 none 15

/-- `binarySearchQualityBuffer`: identical loop, in-memory result. -/
def binarySearchQualityBuffer (enc : Nat → Nat) (target : Nat) : Option Nat :=
  bsRun enc target 5 95 none 15

/-- Quality of the buffer finally written by `binarySearchQuality`: the
best-so-far, or the quality-5 fallback encode. -/
def binarySearchQualityOutput (enc : Nat → Nat) (target : Nat) : Nat :=
  (binarySearchQuality enc target).getD 5

/-- Quality of the buffer returned by `binarySearchQualityBuffer`. -/
def binarySearchQualityBufferOutput (enc : Nat → Nat) (target : Nat) : Nat :=
  (binarySearchQualityBuffer enc target).getD 5

/-- Number of loop iterations (`attempts`) the search executes. -/
def bsSteps (enc : Nat → Nat) (target : Nat) : Nat → Nat → Nat → Nat
  | _, _, 0 => 0
  | lo, hi, fuel + 1 =>
    if lo ≤ hi then
      let q := (lo + hi) / 2
      1 + (if enc q ≤ target then bsSteps enc target (q + 1) hi fuel
           else bsSteps enc target lo (q - 1) fuel)
    else 0

/-- The qualities passed to `compressWithQuality` by the loop, in order. -/
def bsTested (enc : Nat → Nat) (target : Nat) : Nat → Nat → Nat → List Nat
  | _, _, 0 => []
  | lo, hi, fuel + 1 =>
    if lo ≤ hi then
      let q := (lo + hi) / 2
      q :: (if enc q ≤ target then bsTested enc target (q + 1) hi fuel
            else bsTested enc target lo (q - 1) fuel)
    else []

/-- The qualities tested by `binarySearchQuality` on its `[5, 95]` range. -/
def binarySearchTested (enc : Nat → Nat) (target : Nat) : List Nat :=
  bsTested enc target 5 95 15

/-- Loop invariant on the best-so-far: it fits the target, sits just below
the lower bound, and is a real quality; absent best means the lower bound
is still 5. -/
def bsBestInv (enc : Nat → Nat) (target lo : Nat) : Option Nat → Prop
  | none => lo = 5
  | some b => enc b ≤ target ∧ b + 1 = lo ∧ 5 ≤ b

/-- What the search result means: a returned quality is in `[5, 95]`, its
encode fits the target, and it is the largest quality in range that fits;
`none` means no quality in `[5, 95]` fits the target. -/
def bsResultSpec (enc : Nat → Nat) (target : Nat) : Option Nat → Prop
  | some b => 5 ≤ b ∧ b ≤ 95 ∧ enc b ≤ target
      ∧ ∀ q, q ≤ 95 → enc q ≤ target → q ≤ b
  | none => ∀ q, 5 ≤ q → q ≤ 95 → target < enc q

/-! ## Thread manager chunking (threadManager) -/

/-- The `chunkFiles` loop: `i` runs while `i < threadCount` and
`i * filesPerWorker < files.length`; each pass slices
`files.slice(i*fpw, min((i+1)*fpw, len))` and pushes it with its worker
index when nonempty.  The fuel is `threadCount - i`. -/
def chunkLoop (files : List α) (fpw tc : Nat) : Nat → Nat → List (List α × Nat)
  | _, 0 => []
  | i, fuel + 1 =>
    if i < tc ∧ i * fpw < files.length then
      let chunk := (files.drop (i * fpw)).take fpw
      (if 0 < chunk.length then [(chunk, i)] else []) ++
        chunkLoop files fpw tc (i + 1) fuel
    else []

/-- `chunkFiles(files)` with `filesPerWorker = Math.ceil(len / threadCount)`. -/
def chunkFiles (files : List α) (threadCount : Nat) : List (List α × Nat) :=
  chunkLoop files ((files.length + threadCount - 1) / threadCount) threadCount 0 threadCount

/-! ## Batch result aggregation (api `accumulateThreadResults`) -/

/-- One entry of the batch error list. -/
structure ThreadError where
  file : String
  error : String
deriving DecidableEq

/-- One entry of the batch input/output file pair list. -/
structure ProcessedFile where
  inputFile : String
  outputFile : String
deriving DecidableEq

/-- The accumulated batch result. -/
structure BatchResult where
  processed : Nat
  totalSizeReduction : Int
  errors : List ThreadError
  files : List ProcessedFile
deriving DecidableEq

/-- The initial batch accumulator. -/
def emptyBatchResult : BatchResult :=
  { processed := 0, totalSizeReduction := 0, errors := [], files := [] }

/-- `accumulateThreadResults(source, target)` merges one thread-manager
result into the batch accumulator. -/
def accumulateThreadResults (target source : BatchResult) : BatchResult :=
  { processed := target.processed + source.processed
    totalSizeReduction := target.totalSizeReduction + source.totalSizeReduction
    errors := target.errors ++ source.errors
    files := target.files ++ source.files }

/-! ## Extreme-path strategy selection (imageCompressor) -/

/-- One strategy race outcome: `testStrategy` returns the encoded size, the
processing time and a success flag (failures carry `size = Infinity` but are
filtered by the success flag before use). `strategyId` identifies the
strategy tuple, and the buffer is identified by the outcome itself. -/
structure StrategyOutcome where
  strategyId : Nat
  size : Nat
  processingTime : Nat
  success : Bool
deriving DecidableEq, Inhabited

/-- Where `standardCompression` routes a format: the quality binary search
for JPEG/WebP/AVIF, the PNG configuration ladder for PNG, else a plain
`toFile` write. -/
inductive StandardMethod where
  | binarySearch
  | pngLadder
  | plainFile
deriving DecidableEq

/-- The format dispatch of `standardCompression`. -/
def standardCompressionMethod (format : String) : StandardMethod :=
  if format ∈ ["jpeg", "jpg", "webp", "avif"] then .binarySearch
  else if format = "png" then .pngLadder
  else .plainFile

/-- Result of `extremeCompressionParallel`: a chosen catalog outcome, or the
fallback into `standardCompression`. -/
inductive ExtremeResult where
  | chosen (o : StrategyOutcome)
  | fallback (m : StandardMethod)
deriving DecidableEq

/-- `selectBestResult(results, strategy, targetSize)`; `results` is the
size-ascending list of successful under-target outcomes, so `results[0]` is
the smallest.  JS `Array.prototype.sort` is stable, rendered by
`List.insertionSort`. -/
def selectBestResult (results : List StrategyOutcome) (strategy : String)
    (targetSize : Nat) : StrategyOutcome :=
  let smallest := results.headI
  let fastest :=
    (List.insertionSort (fun a b => a.processingTime ≤ b.processingTime) results).headI
  let bestQuality :=
    (List.insertionSort (fun a b => b.size ≤ a.size) results).headI
  if strategy = "size" then smallest
  else if strategy = "speed" then fastest
  else if strategy = "quality" then bestQuality
  else
    if (bestQuality.size : ℚ) / (targetSize : ℚ) * 100 ≤ 95 then bestQuality
    else smallest

/-- The filter-and-sort step of `extremeCompressionParallel` over the
settled strategy outcomes. -/
def successfulSorted (outcomes : List StrategyOutcome) (targetSize : Nat) :
    List StrategyOutcome :=
  List.insertionSort (fun a b => a.size ≤ b.size)
    (outcomes.filter fun o => o.success && decide (o.size ≤ targetSize))

/-- `extremeCompressionParallel` after the strategy race: pick per policy
among successful under-target outcomes, else fall back to
`standardCompression` on the same format. -/
def extremeCompressionParallel (outcomes : List StrategyOutcome) (strategy : String)
    (format : String) (targetSize : Nat) : ExtremeResult :=
  match successfulSorted outcomes targetSize with
  | _ :: _ => .chosen (selectBestResult (successfulSorted outcomes targetSize) strategy targetSize)
  | [] => .fallback (standardCompressionMethod format)

/-- Which target-size path `compressToTargetSizeFile` takes:
`compressionRatio = targetSize / originalSize`, extreme when `< 0.10`. -/
inductive TargetPath where
  | extreme
  | standard
deriving DecidableEq

/-- The ratio test of `compressToTargetSizeFile`/`compressToTargetSizeBuffer`. -/
def compressToTargetSizePath (originalSize targetSize : Nat) : TargetPath :=
  if (targetSize : ℚ) / (originalSize : ℚ) < 1 / 10 then .extreme else .standard

/-- Largest size among the successful under-target outcomes (0 when none);
used to state the `auto`-policy selection rule. -/
def maxQualSize (outcomes : List StrategyOutcome) (targetSize : Nat) : Nat :=
  ((outcomes.filter fun o => o.success && decide (o.size ≤ targetSize)).map
    StrategyOutcome.size).foldr max 0

/-- Smallest size among the successful under-target outcomes; used to state
the `size`/`auto` selection rules.  The basis is `targetSize`, an upper
bound of every qualifying size. -/
def minQualSize (outcomes : List StrategyOutcome) (targetSize : Nat) : Nat :=
  ((outcomes.filter fun o => o.success && decide (o.size ≤ targetSize)).map
    StrategyOutcome.size).foldr min targetSize

/-! ## Auto format race (imageCompressor `findBestFormat`) -/

/-- The four candidate output formats of the auto race. -/
inductive ImgFormat where
  | avif
  | webp
  | jpeg
  | png
deriving DecidableEq, Inhabited

/-- One candidate's settled race result: its encoded size, or `none` when
the encode threw (the source tags errors with `size = Infinity` and the
qualification filter excludes them). -/
structure FormatResult where
  format : ImgFormat
  size : Option Nat
deriving DecidableEq, Inhabited

/-- The candidate formats pushed by `findBestFormat`, in evaluation order:
AVIF and WebP always, JPEG when the image has no alpha channel, PNG when it
has alpha or the requested quality exceeds 90. -/
def findBestFormatCandidates (hasAlpha : Bool) (quality : Nat) : List ImgFormat :=
  [ImgFormat.avif, ImgFormat.webp]
    ++ (if hasAlpha then [] else [ImgFormat.jpeg])
    ++ (if hasAlpha || decide (90 < quality) then [ImgFormat.png] else [])

/-- The qualification filter `!r.error && r.size < originalSize * 0.95`. -/
def formatQualifies (originalSize : Nat) (r : FormatResult) : Bool :=
  match r.size with
  | some s => decide ((s : ℚ) < (originalSize : ℚ) * (95 / 100))
  | none => false

/-- `findBestFormat`: race the candidates, keep those strictly below 95% of
the original size, sort by size and take the head, else fall back to
`results[0]` (the AVIF candidate). -/
def findBestFormat (hasAlpha : Bool) (quality originalSize : Nat)
    (enc : ImgFormat → Option Nat) : FormatResult :=
  let results := (findBestFormatCandidates hasAlpha quality).map fun f =>
    { format := f, size := enc f }
  let sorted := List.insertionSort
    (fun a b : FormatResult => a.size.getD 0 ≤ b.size.getD 0)
    (results.filter (formatQualifies originalSize))
  match sorted with
  | best :: _ => best
  | [] => results.headI

/-- A probe encoder for the auto race: every candidate lands at or above
95% of a 100-byte original (WebP exactly at the 95-byte boundary). -/
def c6ProbeEnc : ImgFormat → Option Nat
  | ImgFormat.avif => some 98
  | ImgFormat.webp => some 95
  | ImgFormat.jpeg => some 99
  | ImgFormat.png => none

/-- A probe encoder for the auto race with qualifying candidates. -/
def c6FitEnc : ImgFormat → Option Nat
  | ImgFormat.avif => some 50
  | ImgFormat.webp => some 80
  | ImgFormat.jpeg => some 90
  | ImgFormat.png => none

/-! ## PNG configuration ladder (imageCompressor `optimizePNG`) -/

/-- One `sharp().png(...)` configuration of the ladder. The fourth source
config omits `colours`, which sharp defaults to 256. -/
structure PNGConfig where
  compressionLevel : Nat
  palette : Bool
  quality : Nat
  colours : Nat
deriving DecidableEq, Inhabited

/-- The fixed configuration sequence of `optimizePNG`. -/
def pngConfigs : List PNGConfig :=
  [ { compressionLevel := 9, palette := true, quality := 50, colours := 128 },
    { compressionLevel := 9, palette := true, quality := 40, colours := 64 },
    { compressionLevel := 9, palette := true, quality := 30, colours := 32 },
    { compressionLevel := 9, palette := false, quality := 50, colours := 256 } ]

/-- `optimizePNG`: write the first configuration whose encode fits the
target; if none fits, write the encode of `configs[0]`.  A written buffer
is identified by its size `enc c`. -/
def optimizePNG (enc : PNGConfig → Nat) (targetSize : Nat) : Nat :=
  match pngConfigs.find? (fun c => decide (enc c ≤ targetSize)) with
  | some c => enc c
  | none => enc (pngConfigs.getD 0 default)

/-- A probe encoder separating the four ladder configurations by output
size, with no configuration at or under 50 bytes. -/
def pngProbeEnc (c : PNGConfig) : Nat :=
  if c.palette = false then 70
  else if c.colours = 128 then 100
  else if c.colours = 64 then 90
  else 80

/-! ## Worker runtime (compressionWorker `processChunk`) and pool handling -/

/-- The per-item payload of a successful compress. -/
structure CompressOutcome where
  originalSize : Nat
  compressedSize : Nat
  outputFile : Option String
deriving DecidableEq

/-- One entry of the worker's `results` array: a success record or a
failure record (`success: false`). -/
inductive ItemResult where
  | ok (file : String) (res : CompressOutcome)
  | fail (file : String) (error : String)
deriving DecidableEq

/-- A worker-to-pool message. -/
inductive WorkerMessage where
  | progress (file : String) (res : CompressOutcome)
  | error (file : String) (msg : String)
  | complete (results : List ItemResult)
deriving DecidableEq

/-- The `results` entry the worker records for one task. -/
def itemResultOf (compressFn : String → Except String CompressOutcome)
    (t : String) : ItemResult :=
  match compressFn t with
  | .ok r => .ok t r
  | .error e => .fail t e

/-- The per-item message the worker posts for one task. -/
def itemMessageOf (compressFn : String → Except String CompressOutcome)
    (t : String) : WorkerMessage :=
  match compressFn t with
  | .ok r => .progress t r
  | .error e => .error t e

/-- The item loop of `processChunk`: each task is compressed inside its own
try/catch, a `progress` or `error` message is posted, the outcome is pushed
onto `results`, and the loop continues; at the end one `complete` message
carries the accumulated `results`. -/
def processChunkGo (compressFn : String → Except String CompressOutcome) :
    List String → List ItemResult → List WorkerMessage
  | [], acc => [.complete acc]
  | t :: ts, acc =>
    match compressFn t with
    | .ok r => .progress t r :: processChunkGo compressFn ts (acc ++ [.ok t r])
    | .error e => .error t e :: processChunkGo compressFn ts (acc ++ [.fail t e])

/-- `processChunk` of the worker runtime, as its emitted message sequence. -/
def processChunk (tasks : List String)
    (compressFn : String → Except String CompressOutcome) : List WorkerMessage :=
  processChunkGo compressFn tasks []

/-- The `complete`-handler body of `createWorker`: per item, successes add
to `processed`, `totalSizeReduction`, and (when an output file exists)
`files`; failure records are skipped. -/
def handleCompleteItem (acc : BatchResult) : ItemResult → BatchResult
  | .ok f res =>
    { acc with
        processed := acc.processed + 1
        totalSizeReduction :=
          acc.totalSizeReduction + ((res.originalSize : Int) - (res.compressedSize : Int))
        files := acc.files ++
          (match res.outputFile with
           | some out => [{ inputFile := f, outputFile := out }]
           | none => []) }
  | .fail _ _ => acc

/-- The message switch of `createWorker`: `progress` only logs, `error`
appends to the batch error list, `complete` folds its item results. -/
def handleMessage (acc : BatchResult) : WorkerMessage → BatchResult
  | .progress _ _ => acc
  | .error f e => { acc with errors := acc.errors ++ [{ file := f, error := e }] }
  | .complete items => items.foldl handleCompleteItem acc

/-- One worker chunk end to end: the pool state after handling every
message the worker posts for its chunk. -/
def runWorkerBatch (tasks : List String)
    (compressFn : String → Except String CompressOutcome) : BatchResult :=
  (processChunk tasks compressFn).foldl handleMessage emptyBatchResult

/-- Whether the compress of one task succeeds. -/
def compressSucceeds (compressFn : String → Except String CompressOutcome)
    (t : String) : Bool :=
  match compressFn t with
  | .ok _ => true
  | .error _ => false

/-- A probe compress function: task `a` throws, every other task succeeds
with an output file. -/
def c8ProbeCompress (u : String) : Except String CompressOutcome :=
  if u = "a" then Except.error ("boom")
  else Except.ok { originalSize := 10, compressedSize := 4, outputFile := some ("b.out") }

/-! ## Target-size validation (api `compress` prologue) -/

/-- Numeric value of a digit run, most significant first. -/
def digitsToNat (l : List Char) : Nat :=
  l.foldl (fun a c => a * 10 + (c.toNat - 48)) 0

/-- The optional unit group of the target-size pattern, uppercased. -/
def parseUnitMultiplier : List Char → Option Nat
  | [] => some 1
  | ['B'] => some 1
  | ['K', 'B'] => some 1024
  | ['M', 'B'] => some (1024 * 1024)
  | ['G', 'B'] => some (1024 * 1024 * 1024)
  | _ => none

/-- `parseTargetSize`: the pattern
`^(\d+(?:\.\d+)?)\s*(B|KB|MB|GB)?$` (case-insensitive), then
`Math.floor(parseFloat(value) * unitMultiplier)` rendered in exact
arithmetic: for a decimal `a.f` with `k` fraction digits the floor of
`(a + f/10^k) * mult` is `(a * mult * 10^k + f * mult) / 10^k` in natural
division.  Returns `none` where the source throws `Invalid format`. -/
def parseTargetSize (s : String) : Option Nat :=
  let cs := s.toList
  let ds := cs.takeWhile Char.isDigit
  let rest := cs.dropWhile Char.isDigit
  if ds.isEmpty then none
  else
    let fracAndRest : Option (List Char × List Char) :=
      match rest with
      | '.' :: r =>
        let fr := r.takeWhile Char.isDigit
        if fr.isEmpty then none else some (fr, r.dropWhile Char.isDigit)
      | _ => some ([], rest)
    match fracAndRest with
    | none => none
    | some (fr, rest2) =>
      let rest3 := rest2.dropWhile Char.isWhitespace
      match parseUnitMultiplier (rest3.map Char.toUpper) with
      | none => none
      | some mult =>
        some ((digitsToNat ds * mult * 10 ^ fr.length + digitsToNat fr * mult)
          / 10 ^ fr.length)

/-- The thrown-before-work errors of the `compress` prologue. -/
inductive CompressError where
  | invalidQuality
  | invalidThreads
  | invalidTargetSize
  | noFiles
  | targetNotSmaller
deriving DecidableEq

/-- The pre-parsed option fields the `compress` prologue validates. A
`targetSize` of `none` models an absent (or falsy) option. -/
structure CompressOptionsModel where
  quality : Option Int
  threads : Option Int
  targetSize : Option String
deriving DecidableEq

/-- `validateSingleFileTarget`: re-match the target pattern and reject a
byte budget at or above the file's original size; an unmatched pattern
passes silently here. -/
def validateSingleFileTarget (originalSize : Nat) (targetSize : String) :
    Except CompressError Unit :=
  match parseTargetSize targetSize with
  | some targetBytes =>
      if originalSize ≤ targetBytes then .error .targetNotSmaller else .ok ()
  | none => .ok ()

/-- Truthiness of the `targetSize` option (JS: a nonempty string). -/
def hasTargetSize (opts : CompressOptionsModel) : Bool :=
  match opts.targetSize with
  | some s => !s.isEmpty
  | none => false

/-- The `compress` entry: option validation in source order, then — only
with a target size and exactly one resolved file — the reachability check,
and only after all checks the actual compression work. `resolvedFiles`
pairs each file with its stat size; `work` stands for everything from
`groupFilesByType` on. -/
def compress (opts : CompressOptionsModel) (resolvedFiles : List (String × Nat))
    (work : List (String × Nat) → BatchResult) : Except CompressError BatchResult :=
  if (match opts.quality with
      | some q => decide (q < 1) || decide (100 < q)
      | none => false) then .error .invalidQuality
  else if (match opts.threads with
      | some t => decide (t < 1)
      | none => false) then .error .invalidThreads
  else if (match opts.targetSize with
      | some s => !s.isEmpty && (parseTargetSize s).isNone
      | none => false) then .error .invalidTargetSize
  else if resolvedFiles.isEmpty then .error .noFiles
  else
    match opts.targetSize, resolvedFiles with
    | some s, [(_, size)] =>
      if s.isEmpty then .ok (work resolvedFiles)
      else
        match validateSingleFileTarget size s with
        | .error e => .error e
        | .ok _ => .ok (work resolvedFiles)
    | _, _ => .ok (work resolvedFiles)

/-! ## Helper lemmas -/

theorem foldl_accumulate_processed (l : List BatchResult) (e : BatchResult) :
    (l.foldl accumulateThreadResults e).processed
      = e.processed + (l.map BatchResult.processed).sum := by
  induction l generalizing e with
  | nil => simp
  | cons x xs ih =>
    simp only [List.foldl_cons, List.map_cons, List.sum_cons, ih]
    simp [accumulateThreadResults]
    omega

theorem foldl_accumulate_reduction (l : List BatchResult) (e : BatchResult) :
    (l.foldl accumulateThreadResults e).totalSizeReduction
      = e.totalSizeReduction + (l.map BatchResult.totalSizeReduction).sum := by
  induction l generalizing e with
  | nil => simp
  | cons x xs ih =>
    simp only [List.foldl_cons, List.map_cons, List.sum_cons, ih]
    simp [accumulateThreadResults]
    ring

theorem foldl_accumulate_errors (l : List BatchResult) (e : BatchResult) :
    (l.foldl accumulateThreadResults e).errors
      = e.errors ++ l.flatMap BatchResult.errors := by
  induction l generalizing e with
  | nil => simp
  | cons x xs ih =>
    simp [List.foldl_cons, ih, accumulateThreadResults]

theorem foldl_accumulate_files (l : List BatchResult) (e : BatchResult) :
    (l.foldl accumulateThreadResults e).files
      = e.files ++ l.flatMap BatchResult.files := by
  induction l generalizing e with
  | nil => simp
  | cons x xs ih =>
    simp [List.foldl_cons, ih, accumulateThreadResults]

/-! ## Claim theorems -/

/-- C4 (amended).  Merging per-chunk batch results with
`accumulateThreadResults` is associative on the nose; merging in either
order, or folding over any reordering of the chunk results, yields
identical `processed` and `totalSizeReduction`, and yields the error list
and the file list up to permutation (the same multisets) — but not the
identical file list, see the counterexample. -/
theorem c4_merge_order_independence (a b c : BatchResult) (l l' : List BatchResult)
    (hperm : List.Perm l l') :
    accumulateThreadResults (accumulateThreadResults a b) c
        = accumulateThreadResults a (accumulateThreadResults b c)
    ∧ (accumulateThreadResults a b).processed = (accumulateThreadResults b a).processed
    ∧ (accumulateThreadResults a b).totalSizeReduction
        = (accumulateThreadResults b a).totalSizeReduction
    ∧ List.Perm (accumulateThreadResults a b).errors (accumulateThreadResults b a).errors
    ∧ List.Perm (accumulateThreadResults a b).files (accumulateThreadResults b a).files
    ∧ (l.foldl accumulateThreadResults emptyBatchResult).processed
        = (l'.foldl accumulateThreadResults emptyBatchResult).processed
    ∧ (l.foldl accumulateThreadResults emptyBatchResult).totalSizeReduction
        = (l'.foldl accumulateThreadResults emptyBatchResult).totalSizeReduction
    ∧ List.Perm (l.foldl accumulateThreadResults emptyBatchResult).errors
        (l'.foldl accumulateThreadResults emptyBatchResult).errors
    ∧ List.Perm (l.foldl accumulateThreadResults emptyBatchResult).files
        (l'.foldl accumulateThreadResults emptyBatchResult).files := by
  refine ⟨?_, ?_, ?_, ?_, ?_, ?_, ?_, ?_, ?_⟩
  · simp [accumulateThreadResults]
    omega
  · simp [accumulateThreadResults]
    omega
  · simp [accumulateThreadResults]
    ring
  · simpa [accumulateThreadResults] using List.perm_append_comm
  · simpa [accumulateThreadResults] using List.perm_append_comm
  · rw [foldl_accumulate_processed, foldl_accumulate_processed]
    exact congrArg _ ((hperm.map _).sum_eq)
  · rw [foldl_accumulate_reduction, foldl_accumulate_reduction]
    exact congrArg _ ((hperm.map _).sum_eq)
  · rw [foldl_accumulate_errors, foldl_accumulate_errors]
    exact (hperm.flatMap_right _).append_left _
  · rw [foldl_accumulate_files, foldl_accumulate_files]
    exact (hperm.flatMap_right _).append_left _

/-- C4 witness: the order-independence theorem applied to two concrete
batch results and a concrete reordering. -/
theorem c4_merge_order_independence_witness :
    (accumulateThreadResults
        { processed := 1, totalSizeReduction := 5, errors := [],
          files := [{ inputFile := "a", outputFile := "a2" }] }
        { processed := 2, totalSizeReduction := 7,
          errors := [{ file := "e", error := "boom" }], files := [] }).processed
      = (accumulateThreadResults
        { processed := 2, totalSizeReduction := 7,
          errors := [{ file := "e", error := "boom" }], files := [] }
        { processed := 1, totalSizeReduction := 5, errors := [],
          files := [{ inputFile := "a", outputFile := "a2" }] }).processed :=
  (c4_merge_order_independence
    { processed := 1, totalSizeReduction := 5, errors := [],
      files := [{ inputFile := "a", outputFile := "a2" }] }
    { processed := 2, totalSizeReduction := 7,
      errors := [{ file := "e", error := "boom" }], files := [] }
    emptyBatchResult
    [emptyBatchResult] [emptyBatchResult] (List.Perm.refl _)).2.1

/-- C4 counterexample: merging two chunk results in the two orders does not
yield the identical file list — the pairs appear in opposite order — so the
merge is not commutative as stated. -/
theorem c4_merge_counterexample :
    accumulateThreadResults
        { processed := 1, totalSizeReduction := 5, errors := [],
          files := [{ inputFile := "a", outputFile := "a2" }] }
        { processed := 1, totalSizeReduction := 7, errors := [],
          files := [{ inputFile := "b", outputFile := "b2" }] }
      ≠
      accumulateThreadResults
        { processed := 1, totalSizeReduction := 7, errors := [],
          files := [{ inputFile := "b", outputFile := "b2" }] }
        { processed := 1, totalSizeReduction := 5, errors := [],
          files := [{ inputFile := "a", outputFile := "a2" }] } := by
  decide

theorem find?_first (p : α → Bool) (l : List α) (c : α) (h : l.find? p = some c) :
    ∃ pre post, l = pre ++ c :: post ∧ p c = true ∧ ∀ x ∈ pre, p x = false := by
  induction l with
  | nil => simp at h
  | cons a t ih =>
    by_cases ha : p a = true
    · rw [List.find?_cons_of_pos _ ha, Option.some_inj] at h
      subst h
      exact ⟨[], t, rfl, ha, by simp⟩
    · rw [List.find?_cons_of_neg _ ha] at h
      obtain ⟨pre, post, hl, hc, hpre⟩ := ih h
      refine ⟨a :: pre, post, by simp [hl], hc, ?_⟩
      intro x hx
      rcases List.mem_cons.mp hx with rfl | hx
      · simpa using ha
      · exact hpre x hx

/-- C7 (amended).  On the standard target-size path for PNG, `optimizePNG`
tries the fixed configuration sequence in order and writes the first output
that fits the target; if none of the four configurations fits, it writes
the output of the FIRST configuration of the sequence (`configs[0]`, the
least aggressive one) — not of the most aggressive configuration tried,
see the counterexample. -/
theorem c7_png_ladder (enc : PNGConfig → Nat) (targetSize : Nat) :
    ((∃ c ∈ pngConfigs, enc c ≤ targetSize) →
      ∃ pre c post, pngConfigs = pre ++ c :: post ∧ enc c ≤ targetSize ∧
        (∀ c' ∈ pre, targetSize < enc c') ∧ optimizePNG enc targetSize = enc c)
    ∧ ((∀ c ∈ pngConfigs, targetSize < enc c) →
      optimizePNG enc targetSize = enc (pngConfigs.getD 0 default)) := by
  constructor
  · intro hex
    have hsome : (pngConfigs.find? (fun c => decide (enc c ≤ targetSize))).isSome := by
      rw [List.find?_isSome]
      obtain ⟨c, hc, hfit⟩ := hex
      exact ⟨c, hc, by simpa using hfit⟩
    obtain ⟨c, hc⟩ := Option.isSome_iff_exists.mp hsome
    obtain ⟨pre, post, hl, hfit, hpre⟩ := find?_first _ _ _ hc
    refine ⟨pre, c, post, hl, by simpa using hfit, ?_, ?_⟩
    · intro c' hc'
      have := hpre c' hc'
      simpa using this
    · simp [optimizePNG, hc]
  · intro hall
    have hnone : pngConfigs.find? (fun c => decide (enc c ≤ targetSize)) = none := by
      rw [List.find?_eq_none]
      intro c hc
      simpa using Nat.not_le.mpr (hall c hc)
    simp [optimizePNG, hnone]

/-- C7 witness: with the probe encoder and target 85 the third
configuration is the first fit and its 80-byte output is written. -/
theorem c7_png_ladder_witness :
    optimizePNG pngProbeEnc 85 = 80 ∧
    (∃ pre c post, pngConfigs = pre ++ c :: post ∧ pngProbeEnc c ≤ 85 ∧
      (∀ c' ∈ pre, 85 < pngProbeEnc c') ∧ optimizePNG pngProbeEnc 85 = pngProbeEnc c) :=
  ⟨by decide, (c7_png_ladder pngProbeEnc 85).1 (by decide)⟩

/-- C7 counterexample: with the probe encoder and target 50 no
configuration fits; the written output is the 100-byte encode of the first
configuration, which differs from the output of every other (more
aggressive) configuration tried — refuting "writes the output of the most
aggressive configuration tried". -/
theorem c7_png_ladder_counterexample :
    (∀ c ∈ pngConfigs, 50 < pngProbeEnc c)
    ∧ optimizePNG pngProbeEnc 50 = pngProbeEnc (pngConfigs.getD 0 default)
    ∧ pngProbeEnc (pngConfigs.getD 0 default) = 100
    ∧ pngProbeEnc (pngConfigs.getD 3 default) = 70
    ∧ (∀ c ∈ pngConfigs, c ≠ pngConfigs.getD 0 default →
        optimizePNG pngProbeEnc 50 ≠ pngProbeEnc c) := by
  decide

theorem chunkLoop_ne_nil {files : List α} {fpw tc i fuel : Nat}
    (h : chunkLoop files fpw tc i fuel ≠ []) :
    i < tc ∧ i * fpw < files.length := by
  by_contra hc
  apply h
  cases fuel with
  | zero => rfl
  | succ f => simp only [chunkLoop]; rw [if_neg hc]

theorem chunkLoop_flatten {files : List α} {fpw tc : Nat}
    (hcover : files.length ≤ tc * fpw) :
    ∀ fuel i, tc ≤ i + fuel →
      ((chunkLoop files fpw tc i fuel).map Prod.fst).flatten = files.drop (i * fpw) := by
  intro fuel
  induction fuel with
  | zero =>
    intro i hi
    simp only [chunkLoop, List.map_nil, List.flatten_nil]
    symm
    rw [List.drop_eq_nil_iff]
    calc files.length ≤ tc * fpw := hcover
      _ ≤ i * fpw := Nat.mul_le_mul_right _ (by omega)
  | succ f ih =>
    intro i hi
    simp only [chunkLoop]
    by_cases hcond : i < tc ∧ i * fpw < files.length
    · rw [if_pos hcond]
      have hfpw : 0 < fpw := by
        rcases Nat.eq_zero_or_pos fpw with h0 | h
        · subst h0
          rw [Nat.mul_zero] at hcover
          omega
        · exact h
      have hchunklen : 0 < ((files.drop (i * fpw)).take fpw).length := by
        rw [List.length_take, List.length_drop]
        omega
      rw [if_pos hchunklen]
      rw [List.singleton_append, List.map_cons, List.flatten_cons]
      rw [ih (i + 1) (by omega)]
      have hdrop : files.drop ((i + 1) * fpw) = (files.drop (i * fpw)).drop fpw := by
        rw [List.drop_drop]
        congr 1
        ring
      rw [hdrop, List.take_append_drop]
    · rw [if_neg hcond]
      simp only [List.map_nil, List.flatten_nil]
      symm
      rw [List.drop_eq_nil_iff]
      rcases Decidable.not_and_iff_or_not.mp hcond with h | h
      · calc files.length ≤ tc * fpw := hcover
          _ ≤ i * fpw := Nat.mul_le_mul_right _ (by omega)
      · omega

theorem chunkLoop_length {files : List α} {fpw tc : Nat} :
    ∀ fuel i, (chunkLoop files fpw tc i fuel).length ≤ fuel := by
  intro fuel
  induction fuel with
  | zero => intro i; simp [chunkLoop]
  | succ f ih =>
    intro i
    simp only [chunkLoop]
    by_cases hcond : i < tc ∧ i * fpw < files.length
    · rw [if_pos hcond]
      by_cases hc : 0 < ((files.drop (i * fpw)).take fpw).length
      · rw [if_pos hc]
        simpa using Nat.succ_le_succ (ih (i + 1))
      · rw [if_neg hc]
        simpa using Nat.le_succ_of_le (ih (i + 1))
    · rw [if_neg hcond]; simp

theorem chunkLoop_mem_ne_nil {files : List α} {fpw tc : Nat} :
    ∀ fuel i c, c ∈ chunkLoop files fpw tc i fuel → c.1 ≠ [] := by
  intro fuel
  induction fuel with
  | zero => intro i c hc; simp [chunkLoop] at hc
  | succ f ih =>
    intro i c hc
    simp only [chunkLoop] at hc
    by_cases hcond : i < tc ∧ i * fpw < files.length
    · rw [if_pos hcond] at hc
      by_cases hlen : 0 < ((files.drop (i * fpw)).take fpw).length
      · rw [if_pos hlen, List.singleton_append, List.mem_cons] at hc
        rcases hc with rfl | hc
        · exact List.length_pos.mp hlen
        · exact ih (i + 1) c hc
      · rw [if_neg hlen, List.nil_append] at hc
        exact ih (i + 1) c hc
    · rw [if_neg hcond] at hc
      simp at hc

theorem chunkLoop_mem_le {files : List α} {fpw tc : Nat} :
    ∀ fuel i c, c ∈ chunkLoop files fpw tc i fuel → c.1.length ≤ fpw := by
  intro fuel
  induction fuel with
  | zero => intro i c hc; simp [chunkLoop] at hc
  | succ f ih =>
    intro i c hc
    simp only [chunkLoop] at hc
    by_cases hcond : i < tc ∧ i * fpw < files.length
    · rw [if_pos hcond] at hc
      by_cases hlen : 0 < ((files.drop (i * fpw)).take fpw).length
      · rw [if_pos hlen, List.singleton_append, List.mem_cons] at hc
        rcases hc with rfl | hc
        · simp [List.length_take_le]
        · exact ih (i + 1) c hc
      · rw [if_neg hlen, List.nil_append] at hc
        exact ih (i + 1) c hc
    · rw [if_neg hcond] at hc
      simp at hc

theorem chunkLoop_dropLast_length {files : List α} {fpw tc : Nat} :
    ∀ fuel i, ∀ c ∈ (chunkLoop files fpw tc i fuel).dropLast,
      c.1.length = fpw := by
  intro fuel
  induction fuel with
  | zero => intro i c hc; simp [chunkLoop] at hc
  | succ f ih =>
    intro i c hc
    simp only [chunkLoop] at hc
    by_cases hcond : i < tc ∧ i * fpw < files.length
    · rw [if_pos hcond] at hc
      by_cases hlen : 0 < ((files.drop (i * fpw)).take fpw).length
      swap
      · rw [if_neg hlen, List.nil_append] at hc
        exact ih (i + 1) c hc
      rw [if_pos hlen, List.singleton_append] at hc
      cases hrest : chunkLoop files fpw tc (i + 1) f with
      | nil => rw [hrest] at hc; simp at hc
      | cons y ys =>
        rw [hrest] at hc
        rw [List.dropLast_cons₂, List.mem_cons] at hc
        rcases hc with rfl | hc
        · have hnext := @chunkLoop_ne_nil _ files fpw tc (i + 1) f (by rw [hrest]; simp)
          rw [List.length_take, List.length_drop]
          have : (i + 1) * fpw < files.length := hnext.2
          have hmul : i * fpw + fpw ≤ files.length := by
            calc i * fpw + fpw = (i + 1) * fpw := by ring
              _ ≤ files.length := le_of_lt hnext.2
          omega
        · exact ih (i + 1) c (by rw [hrest]; exact hc)
    · rw [if_neg hcond] at hc
      simp at hc

/-- C3.  For every task list and every configured thread count (≥ 1),
`chunkFiles` produces chunks whose concatenated task lists equal the input
list exactly, in order; each chunk except possibly the last contains
`ceil(total / threadCount)` tasks and no chunk exceeds that; no chunk is
empty; and the number of chunks never exceeds the thread count. -/
theorem c3_chunk_partition (files : List α) (threadCount : Nat)
    (htc : 1 ≤ threadCount) :
    ((chunkFiles files threadCount).map Prod.fst).flatten = files
    ∧ (chunkFiles files threadCount).length ≤ threadCount
    ∧ (∀ c ∈ chunkFiles files threadCount, c.1 ≠ [])
    ∧ (∀ c ∈ (chunkFiles files threadCount).dropLast,
        c.1.length = (files.length + threadCount - 1) / threadCount)
    ∧ (∀ c ∈ chunkFiles files threadCount,
        c.1.length ≤ (files.length + threadCount - 1) / threadCount) := by
  have hcover : files.length ≤ threadCount * ((files.length + threadCount - 1) / threadCount) := by
    have hdm := Nat.div_add_mod (files.length + threadCount - 1) threadCount
    have hmod := Nat.mod_lt (files.length + threadCount - 1) (by omega : 0 < threadCount)
    omega
  refine ⟨?_, ?_, ?_, ?_, ?_⟩
  · have := @chunkLoop_flatten _ files ((files.length + threadCount - 1) / threadCount)
      threadCount hcover threadCount 0 (by omega)
    simpa [chunkFiles] using this
  · exact chunkLoop_length threadCount 0
  · exact fun c hc => chunkLoop_mem_ne_nil threadCount 0 c hc
  · exact fun c hc => chunkLoop_dropLast_length threadCount 0 c hc
  · exact fun c hc => chunkLoop_mem_le threadCount 0 c hc

/-- C3 witness: five tasks over two workers chunk into `[1,2,3]` and
`[4,5]`, whose concatenation restores the input within the thread bound. -/
theorem c3_chunk_partition_witness :
    ((chunkFiles ([1, 2, 3, 4, 5] : List Nat) 2).map Prod.fst).flatten = [1, 2, 3, 4, 5]
    ∧ (chunkFiles ([1, 2, 3, 4, 5] : List Nat) 2).length ≤ 2 :=
  ⟨(c3_chunk_partition ([1, 2, 3, 4, 5] : List Nat) 2 (by decide)).1,
   (c3_chunk_partition ([1, 2, 3, 4, 5] : List Nat) 2 (by decide)).2.1⟩

theorem bsRun_term (enc : Nat → Nat) (target : Nat) (lo hi : Nat) (best : Option Nat)
    (hlo96 : lo ≤ 96) (hterm : hi < lo)
    (hbest : bsBestInv enc target lo best)
    (habove : ∀ q, hi < q → q ≤ 95 → target < enc q) :
    bsResultSpec enc target best := by
  cases best with
  | none =>
    intro q hq5 hq95
    have hlo : lo = 5 := hbest
    exact habove q (by omega) hq95
  | some b =>
    obtain ⟨hfit, hblo, hb5⟩ := hbest
    refine ⟨hb5, by omega, hfit, ?_⟩
    intro q hq95 hqfit
    by_contra hqb
    push_neg at hqb
    exact absurd hqfit (Nat.not_le.mpr (habove q (by omega) hq95))

theorem bsRun_correct (enc : Nat → Nat) (target : Nat)
    (mono : ∀ a b, a ≤ b → enc a ≤ enc b) :
    ∀ fuel lo hi best,
      5 ≤ lo → lo ≤ 96 → hi ≤ 95 →
      hi + 1 - lo ≤ 2 ^ fuel - 1 →
      bsBestInv enc target lo best →
      (∀ q, hi < q → q ≤ 95 → target < enc q) →
      bsResultSpec enc target (bsRun enc target lo hi best fuel) := by
  intro fuel
  induction fuel with
  | zero =>
    intro lo hi best hlo5 hlo96 hhi hfuel hbest habove
    have hterm : hi < lo := by simp at hfuel; omega
    simp only [bsRun]
    exact bsRun_term enc target lo hi best hlo96 hterm hbest habove
  | succ f ih =>
    intro lo hi best hlo5 hlo96 hhi hfuel hbest habove
    have hP : 1 ≤ 2 ^ f := Nat.one_le_two_pow
    have hPP : 2 ^ (f + 1) = 2 * 2 ^ f := by rw [pow_succ]; ring
    rw [hPP] at hfuel
    simp only [bsRun]
    by_cases hle : lo ≤ hi
    · rw [if_pos hle]
      have hqlo : lo ≤ (lo + hi) / 2 := by omega
      have hqhi : (lo + hi) / 2 ≤ hi := by omega
      by_cases hfit : enc ((lo + hi) / 2) ≤ target
      · rw [if_pos hfit]
        exact ih ((lo + hi) / 2 + 1) hi (some ((lo + hi) / 2))
          (by omega) (by omega) hhi (by omega)
          ⟨hfit, rfl, by omega⟩ habove
      · rw [if_neg hfit]
        refine ih lo ((lo + hi) / 2 - 1) best hlo5 hlo96 (by omega) (by omega) hbest ?_
        intro r hr hr95
        rcases Nat.lt_or_ge hi r with hcase | hcase
        · exact habove r hcase hr95
        · have hqr : (lo + hi) / 2 ≤ r := by omega
          exact Nat.lt_of_lt_of_le (Nat.lt_of_not_le hfit) (mono _ r hqr)
    · rw [if_neg hle]
      exact bsRun_term enc target lo hi best hlo96 (by omega) hbest habove

theorem bsSteps_le (enc : Nat → Nat) (target : Nat) :
    ∀ fuel lo hi, bsSteps enc target lo hi fuel ≤ fuel := by
  intro fuel
  induction fuel with
  | zero => intro lo hi; simp [bsSteps]
  | succ f ih =>
    intro lo hi
    simp only [bsSteps]
    by_cases hle : lo ≤ hi
    · rw [if_pos hle]
      by_cases hfit : enc ((lo + hi) / 2) ≤ target
      · rw [if_pos hfit]
        have := ih ((lo + hi) / 2 + 1) hi
        omega
      · rw [if_neg hfit]
        have := ih lo ((lo + hi) / 2 - 1)
        omega
    · rw [if_neg hle]
      omega

/-- C2.  For every target size and every encoder whose output size is
monotone in quality, the standard-path binary search (file and buffer
variants are the same loop) runs at most 15 iterations and returns the
largest quality in `[5, 95]` whose encode fits the target — which, under
monotonicity, is also the largest tested fitting quality — keeping a result
only when its size is at or under target and narrowing upward on success
and downward on failure; when no quality fits, it returns `none` and the
written output is the minimum-quality (5) encode. -/
theorem c2_binary_search_convergence (enc : Nat → Nat) (target : Nat)
    (mono : ∀ a b, a ≤ b → enc a ≤ enc b) :
    binarySearchQualityBuffer enc target = binarySearchQuality enc target
    ∧ bsSteps enc target 5 95 15 ≤ 15
    ∧ bsResultSpec enc target (binarySearchQuality enc target)
    ∧ (∀ b, binarySearchQuality enc target = some b →
        binarySearchQualityOutput enc target = b)
    ∧ (binarySearchQuality enc target = none →
        binarySearchQualityOutput enc target = 5) := by
  refine ⟨rfl, bsSteps_le enc target 15 5 95, ?_, ?_, ?_⟩
  · have h := bsRun_correct enc target mono 15 5 95 none
      (by omega) (by omega) (by omega) (by norm_num) rfl
      (fun q hq1 hq2 => absurd hq2 (by omega))
    exact h
  · intro b hb
    simp [binarySearchQualityOutput, hb]
  · intro hb
    simp [binarySearchQualityOutput, hb]

/-- C2 witness: for the identity encoder and target 50 the search returns
quality 50, the largest fitting quality in range. -/
theorem c2_binary_search_convergence_witness :
    binarySearchQuality (fun q => q) 50 = some 50
    ∧ bsResultSpec (fun q => q) 50 (binarySearchQuality (fun q => q) 50) :=
  ⟨by decide, (c2_binary_search_convergence (fun q => q) 50 (fun _ _ h => h)).2.2.1⟩

theorem bsTested_bounds (enc : Nat → Nat) (target : Nat) :
    ∀ fuel lo hi, 5 ≤ lo → hi ≤ 95 →
      ∀ q ∈ bsTested enc target lo hi fuel, 5 ≤ q ∧ q ≤ 95 := by
  intro fuel
  induction fuel with
  | zero => intro lo hi _ _ q hq; simp [bsTested] at hq
  | succ f ih =>
    intro lo hi hlo hhi q hq
    simp only [bsTested] at hq
    by_cases hle : lo ≤ hi
    · rw [if_pos hle] at hq
      by_cases hfit : enc ((lo + hi) / 2) ≤ target
      · rw [if_pos hfit] at hq
        rcases List.mem_cons.mp hq with rfl | hq'
        · omega
        · exact ih ((lo + hi) / 2 + 1) hi (by omega) hhi q hq'
      · rw [if_neg hfit] at hq
        rcases List.mem_cons.mp hq with rfl | hq'
        · omega
        · exact ih lo ((lo + hi) / 2 - 1) hlo (by omega) q hq'
    · rw [if_neg hle] at hq
      simp at hq

/-- C10.  During the standard target-size binary search — in both the file
and the buffer variant, which run the identical loop on bounds initialized
to 5 and 95 that only ever shrink — every quality passed to the encoder
lies within `[5, 95]`, and the no-fit fallback encode uses quality
exactly 5. -/
theorem c10_quality_bounds (enc : Nat → Nat) (target : Nat) :
    (∀ q ∈ binarySearchTested enc target, 5 ≤ q ∧ q ≤ 95)
    ∧ (binarySearchQuality enc target = none →
        binarySearchQualityOutput enc target = 5)
    ∧ (binarySearchQualityBuffer enc target = none →
        binarySearchQualityBufferOutput enc target = 5) := by
  refine ⟨?_, ?_, ?_⟩
  · exact fun q hq => bsTested_bounds enc target 15 5 95 (by omega) (by omega) q hq
  · intro hnone
    simp [binarySearchQualityOutput, hnone]
  · intro hnone
    simp [binarySearchQualityBufferOutput, hnone]

/-- C10 witness: quality 50 is tested by the search for the identity
encoder at target 60, and it lies within the bounds. -/
theorem c10_quality_bounds_witness :
    50 ∈ binarySearchTested (fun q => q) 60 ∧ (5 ≤ 50 ∧ 50 ≤ 95) :=
  ⟨by decide, (c10_quality_bounds (fun q => q) 60).1 50 (by decide)⟩

theorem bandContains_ne_last (h f i r : Nat) (hne : i ≠ f - 1) :
    bandContains (bandAt h f i) r ↔ i * (h / f) ≤ r ∧ r < i * (h / f) + h / f := by
  simp only [bandContains, bandAt, if_neg hne]
  constructor
  · rintro ⟨h1, h2⟩
    refine ⟨h1, ?_⟩
    exact_mod_cast h2
  · rintro ⟨h1, h2⟩
    refine ⟨h1, ?_⟩
    exact_mod_cast h2

theorem bandContains_last (h f r : Nat) :
    bandContains (bandAt h f (f - 1)) r ↔ (f - 1) * (h / f) ≤ r ∧ r < h := by
  simp only [bandContains, bandAt, if_pos rfl, if_true]
  constructor
  · rintro ⟨h1, h2⟩
    refine ⟨h1, ?_⟩
    omega
  · rintro ⟨h1, h2⟩
    refine ⟨h1, ?_⟩
    omega

theorem bandAt_exists (h f : Nat) (hf1 : 0 < f) (hfle : f ≤ h) (r : Nat) (hr : r < h) :
    ∃ i, i < f ∧ bandContains (bandAt h f i) r := by
  have hfh : 0 < h / f := Nat.div_pos hfle hf1
  by_cases hcase : r / (h / f) < f - 1
  · refine ⟨r / (h / f), by omega, ?_⟩
    rw [bandContains_ne_last h f _ r (by omega)]
    refine ⟨Nat.div_mul_le_self r (h / f), ?_⟩
    have hdm := Nat.div_add_mod r (h / f)
    have hm := Nat.mod_lt r hfh
    have hcomm : h / f * (r / (h / f)) = r / (h / f) * (h / f) := Nat.mul_comm _ _
    omega
  · refine ⟨f - 1, by omega, ?_⟩
    rw [bandContains_last h f r]
    push_neg at hcase
    refine ⟨?_, hr⟩
    calc (f - 1) * (h / f) ≤ r / (h / f) * (h / f) := Nat.mul_le_mul_right _ hcase
      _ ≤ r := Nat.div_mul_le_self r (h / f)

theorem bandAt_inside (h f : Nat) (hf1 : 0 < f) (hfle : f ≤ h) (i r : Nat) (hi : i < f)
    (hc : bandContains (bandAt h f i) r) : r < h := by
  have hfh : 0 < h / f := Nat.div_pos hfle hf1
  by_cases hlast : i = f - 1
  · subst hlast
    exact ((bandContains_last h f r).mp hc).2
  · have hc' := (bandContains_ne_last h f i r hlast).mp hc
    have h1 : (i + 1) * (h / f) ≤ (f - 1) * (h / f) := Nat.mul_le_mul_right _ (by omega)
    have h2 : h / f * f ≤ h := Nat.div_mul_le_self h f
    have h3 : (i + 1) * (h / f) = i * (h / f) + h / f := Nat.succ_mul _ _
    have h4 : (f - 1 + 1) * (h / f) = (f - 1) * (h / f) + h / f := Nat.succ_mul _ _
    have h5 : f - 1 + 1 = f := by omega
    rw [h5] at h4
    have h6 : f * (h / f) = h / f * f := Nat.mul_comm _ _
    omega

theorem bandAt_disjoint (h f : Nat) (i j r : Nat) (hij : i < j) (hjf : j < f)
    (hci : bandContains (bandAt h f i) r) : ¬ bandContains (bandAt h f j) r := by
  intro hcj
  have hine : i ≠ f - 1 := by omega
  have hc' := (bandContains_ne_last h f i r hine).mp hci
  have htopj : j * (h / f) ≤ r := by
    by_cases hjlast : j = f - 1
    · subst hjlast
      exact ((bandContains_last h f r).mp hcj).1
    · exact ((bandContains_ne_last h f j r hjlast).mp hcj).1
  have h3 : (i + 1) * (h / f) = i * (h / f) + h / f := Nat.succ_mul _ _
  have h1 : (i + 1) * (h / f) ≤ j * (h / f) := Nat.mul_le_mul_right _ (by omega)
  omega

theorem splitOneFile_eq (file : ImageFile) (threadCount : Nat)
    (hext : file.ext ∈ imageExts) (hsize : MIN_FRAGMENT_SIZE ≤ file.size)
    (hh : file.height ≠ 0) (hw : file.width ≠ 0)
    (hfit : max MIN_FRAGMENTS threadCount ≤ file.height) :
    splitOneFile file threadCount
      = (List.range (max MIN_FRAGMENTS threadCount)).map (fun i =>
          FragmentResult.frag file
            (bandAt file.height (max MIN_FRAGMENTS threadCount) i)
            i (max MIN_FRAGMENTS threadCount) file.ext) := by
  have hf1 : 0 < max MIN_FRAGMENTS threadCount := by
    have : MIN_FRAGMENTS ≤ max MIN_FRAGMENTS threadCount := le_max_left _ _
    have h2 : MIN_FRAGMENTS = 2 := rfl
    omega
  have hdiv : ¬ file.height / (max MIN_FRAGMENTS threadCount) = 0 :=
    Nat.pos_iff_ne_zero.mp (Nat.div_pos hfit hf1)
  simp only [splitOneFile, fragmentHeight, bandAt]
  rw [if_neg (not_not_intro hext), if_neg (Nat.not_lt.mpr hsize),
    if_neg (by push_neg; exact ⟨hh, hw⟩)]
  simp only [if_neg hdiv]

theorem fragBandsOf_map (file : ImageFile) (f : Nat) (g : Nat → Band) (e : String) :
    fragBandsOf ((List.range f).map (fun i => FragmentResult.frag file (g i) i f e))
      = (List.range f).map g := by
  induction (List.range f) with
  | nil => simp [fragBandsOf]
  | cons x xs ih =>
    simp only [List.map_cons, fragBandsOf, List.filterMap_cons] at *
    simpa using ih

/-- C1 (amended).  For every image file above the 100 MiB threshold whose
width and height can be determined, and any `threadCount ≥ 1` such that
`max(2, threadCount) ≤ imageHeight`, `splitLargeImagesIntoFragments` splits
the file into exactly `max(2, threadCount)` horizontal bands with
`bandHeight = floor(imageHeight / fragmentCount)` and the last band
absorbing the remainder, and the bands' row ranges cover `[0, imageHeight)`
exactly: every row below `imageHeight` lies in a band, no band reaches a
row at or beyond `imageHeight`, and distinct bands share no row.  When
`imageHeight < max(2, threadCount)` the source substitutes `imageHeight`
for the zero band height and coverage fails — see the counterexample. -/
theorem c1_fragmentation_coverage (file : ImageFile) (threadCount : Nat)
    (hext : file.ext ∈ imageExts) (hsize : MIN_FRAGMENT_SIZE ≤ file.size)
    (hh : file.height ≠ 0) (hw : file.width ≠ 0) (_htc : 1 ≤ threadCount)
    (hfit : max MIN_FRAGMENTS threadCount ≤ file.height) :
    splitOneFile file threadCount
        = (List.range (max MIN_FRAGMENTS threadCount)).map (fun i =>
            FragmentResult.frag file
              (bandAt file.height (max MIN_FRAGMENTS threadCount) i)
              i (max MIN_FRAGMENTS threadCount) file.ext)
    ∧ (splitOneFile file threadCount).length = max MIN_FRAGMENTS threadCount
    ∧ (∀ r : Nat, r < file.height →
        ∃ b ∈ fragBandsOf (splitOneFile file threadCount), bandContains b r)
    ∧ (∀ b ∈ fragBandsOf (splitOneFile file threadCount), ∀ r : Nat,
        bandContains b r → r < file.height)
    ∧ (fragBandsOf (splitOneFile file threadCount)).Pairwise
        (fun b₁ b₂ => ∀ r : Nat, bandContains b₁ r → ¬ bandContains b₂ r) := by
  have hf1 : 0 < max MIN_FRAGMENTS threadCount := by
    have : MIN_FRAGMENTS ≤ max MIN_FRAGMENTS threadCount := le_max_left _ _
    have h2 : MIN_FRAGMENTS = 2 := rfl
    omega
  have heq := splitOneFile_eq file threadCount hext hsize hh hw hfit
  have hbands : fragBandsOf (splitOneFile file threadCount)
      = (List.range (max MIN_FRAGMENTS threadCount)).map
          (bandAt file.height (max MIN_FRAGMENTS threadCount)) := by
    rw [heq, fragBandsOf_map]
  refine ⟨heq, ?_, ?_, ?_, ?_⟩
  · rw [heq]
    simp
  · intro r hr
    obtain ⟨i, hi, hci⟩ := bandAt_exists file.height _ hf1 hfit r hr
    refine ⟨bandAt file.height (max MIN_FRAGMENTS threadCount) i, ?_, hci⟩
    rw [hbands]
    exact List.mem_map_of_mem _ (List.mem_range.mpr hi)
  · intro b hb r hc
    rw [hbands] at hb
    obtain ⟨i, hi, rfl⟩ := List.mem_map.mp hb
    exact bandAt_inside file.height _ hf1 hfit i r (List.mem_range.mp hi) hc
  · rw [hbands, List.pairwise_iff_getElem]
    intro i j hi hj hij
    simp only [List.length_map, List.length_range] at hi hj
    simp only [List.getElem_map, List.getElem_range]
    intro r hci
    exact bandAt_disjoint file.height _ i j r hij hj hci

/-- C1 witness: a 100 MiB ten-row PNG split across 3 threads yields 3 bands
and row 5 is covered. -/
theorem c1_fragmentation_coverage_witness :
    (splitOneFile { ext := ".png", size := 104857600, height := 10, width := 1 } 3).length = 3
    ∧ ∃ b ∈ fragBandsOf
        (splitOneFile { ext := ".png", size := 104857600, height := 10, width := 1 } 3),
        bandContains b 5 :=
  ⟨(c1_fragmentation_coverage { ext := ".png", size := 104857600, height := 10, width := 1 } 3
      (by decide) (by decide) (by decide) (by decide) (by decide) (by decide)).2.1,
   (c1_fragmentation_coverage { ext := ".png", size := 104857600, height := 10, width := 1 } 3
      (by decide) (by decide) (by decide) (by decide) (by decide) (by decide)).2.2.1 5
      (by decide)⟩

/-- C1 counterexample: a 100 MiB image of height 2 split with
`threadCount = 3` (an eligible above-threshold file with determinable
dimensions and `threadCount ≥ 1`) produces a band containing row 2, which
lies outside `[0, imageHeight) = [0, 2)` — the union of the bands' row
ranges does not exactly cover the image, refuting the claim as stated. -/
theorem c1_fragmentation_counterexample :
    (".png" ∈ imageExts)
    ∧ MIN_FRAGMENT_SIZE ≤ 104857600
    ∧ (splitOneFile { ext := ".png", size := 104857600, height := 2, width := 1 } 3).length = 3
    ∧ (∃ b ∈ fragBandsOf
        (splitOneFile { ext := ".png", size := 104857600, height := 2, width := 1 } 3),
        bandContains b 2)
    ∧ ¬ (2 < 2) := by
  decide

theorem foldr_max_le : ∀ (l : List Nat) (m : Nat), (∀ y ∈ l, y ≤ m) → l.foldr max 0 ≤ m := by
  intro l
  induction l with
  | nil => intro m _; simp
  | cons a t ih =>
    intro m h
    simp only [List.foldr_cons, max_le_iff]
    exact ⟨h a (by simp), ih m fun y hy => h y (List.mem_cons_of_mem _ hy)⟩

theorem foldr_max_eq : ∀ (l : List Nat) (x : Nat), x ∈ l → (∀ y ∈ l, y ≤ x) →
    l.foldr max 0 = x := by
  intro l
  induction l with
  | nil => intro x hx _; cases hx
  | cons a t ih =>
    intro x hx hub
    simp only [List.foldr_cons]
    rcases List.mem_cons.mp hx with rfl | hx'
    · have ht : t.foldr max 0 ≤ x := foldr_max_le t x fun y hy => hub y (List.mem_cons_of_mem _ hy)
      omega
    · have ha : a ≤ x := hub a (by simp)
      have ht := ih x hx' fun y hy => hub y (List.mem_cons_of_mem _ hy)
      omega

theorem insertionSort_headI_min {α : Type} [Inhabited α] (key : α → Nat) (l : List α)
    (hl : l ≠ []) :
    (List.insertionSort (fun a b => key a ≤ key b) l).headI ∈ l
    ∧ ∀ x ∈ l, key ((List.insertionSort (fun a b => key a ≤ key b) l).headI) ≤ key x := by
  haveI : IsTotal α (fun a b => key a ≤ key b) := ⟨fun a b => Nat.le_total _ _⟩
  haveI : IsTrans α (fun a b => key a ≤ key b) := ⟨fun _ _ _ hab hbc => le_trans hab hbc⟩
  have hperm := List.perm_insertionSort (fun a b => key a ≤ key b) l
  have hsorted := List.sorted_insertionSort (fun a b => key a ≤ key b) l
  cases hs : List.insertionSort (fun a b => key a ≤ key b) l with
  | nil =>
    rw [hs] at hperm
    exact absurd hperm.nil_eq.symm hl
  | cons a t =>
    rw [hs] at hperm hsorted
    simp only [List.headI]
    constructor
    · exact hperm.subset (List.mem_cons_self a t)
    · intro x hx
      rcases List.mem_cons.mp (hperm.mem_iff.mpr hx) with rfl | hx'
      · exact le_refl _
      · exact List.rel_of_sorted_cons hsorted x hx'

theorem insertionSort_headI_max {α : Type} [Inhabited α] (key : α → Nat) (l : List α)
    (hl : l ≠ []) :
    (List.insertionSort (fun a b => key b ≤ key a) l).headI ∈ l
    ∧ ∀ x ∈ l, key x ≤ key ((List.insertionSort (fun a b => key b ≤ key a) l).headI) := by
  haveI : IsTotal α (fun a b => key b ≤ key a) := ⟨fun a b => Nat.le_total _ _⟩
  haveI : IsTrans α (fun a b => key b ≤ key a) := ⟨fun _ _ _ hab hbc => le_trans hbc hab⟩
  have hperm := List.perm_insertionSort (fun a b => key b ≤ key a) l
  have hsorted := List.sorted_insertionSort (fun a b => key b ≤ key a) l
  cases hs : List.insertionSort (fun a b => key b ≤ key a) l with
  | nil =>
    rw [hs] at hperm
    exact absurd hperm.nil_eq.symm hl
  | cons a t =>
    rw [hs] at hperm hsorted
    simp only [List.headI]
    constructor
    · exact hperm.subset (List.mem_cons_self a t)
    · intro x hx
      rcases List.mem_cons.mp (hperm.mem_iff.mpr hx) with rfl | hx'
      · exact le_refl _
      · exact List.rel_of_sorted_cons hsorted x hx'

theorem extremeCompressionParallel_eq_chosen (outcomes : List StrategyOutcome)
    (strategy format : String) (targetSize : Nat)
    (h : successfulSorted outcomes targetSize ≠ []) :
    extremeCompressionParallel outcomes strategy format targetSize
      = ExtremeResult.chosen
          (selectBestResult (successfulSorted outcomes targetSize) strategy targetSize) := by
  unfold extremeCompressionParallel
  cases hsel : successfulSorted outcomes targetSize with
  | nil => exact absurd hsel h
  | cons a t => rfl

theorem extremeCompressionParallel_eq_fallback (outcomes : List StrategyOutcome)
    (strategy format : String) (targetSize : Nat)
    (h : successfulSorted outcomes targetSize = []) :
    extremeCompressionParallel outcomes strategy format targetSize
      = ExtremeResult.fallback (standardCompressionMethod format) := by
  unfold extremeCompressionParallel
  rw [h]

/-- C5 (amended).  With a target size whose ratio to the original size is
below 0.10, the engine takes the extreme path; when at least one catalog
outcome succeeds at or under budget, it picks among the successful
under-budget outcomes per the strategy policy — `size` the globally
smallest, `speed` the fastest processing time, `quality` the largest byte
size still under budget, `auto` the largest-under-budget unless that
exceeds 95% of the byte budget, in which case the smallest — and when no
outcome meets the target it falls back to the standard target-size path for
the same format: the quality binary search for JPEG/WebP/AVIF, but the PNG
configuration ladder for PNG (see the counterexample, which refutes the
unconditional "binary-search" fallback). -/
theorem c5_extreme_selection (outcomes : List StrategyOutcome) (strategy format : String)
    (originalSize targetSize : Nat) (htgt : 0 < targetSize)
    (hrlow : (targetSize : ℚ) / (originalSize : ℚ) < 1 / 10) :
    compressToTargetSizePath originalSize targetSize = TargetPath.extreme
    ∧ ((∃ o ∈ outcomes, o.success = true ∧ o.size ≤ targetSize) →
        ∃ chosen, extremeCompressionParallel outcomes strategy format targetSize
            = ExtremeResult.chosen chosen
          ∧ chosen ∈ outcomes ∧ chosen.success = true ∧ chosen.size ≤ targetSize
          ∧ (strategy = "size" →
              ∀ u ∈ outcomes, u.success = true → u.size ≤ targetSize →
                chosen.size ≤ u.size)
          ∧ (strategy = "speed" →
              ∀ u ∈ outcomes, u.success = true → u.size ≤ targetSize →
                chosen.processingTime ≤ u.processingTime)
          ∧ (strategy = "quality" →
              ∀ u ∈ outcomes, u.success = true → u.size ≤ targetSize →
                u.size ≤ chosen.size)
          ∧ (strategy = "auto" →
              (100 * maxQualSize outcomes targetSize ≤ 95 * targetSize →
                ∀ u ∈ outcomes, u.success = true → u.size ≤ targetSize →
                  u.size ≤ chosen.size)
              ∧ (95 * targetSize < 100 * maxQualSize outcomes targetSize →
                ∀ u ∈ outcomes, u.success = true → u.size ≤ targetSize →
                  chosen.size ≤ u.size)))
    ∧ ((∀ o ∈ outcomes, ¬(o.success = true ∧ o.size ≤ targetSize)) →
        extremeCompressionParallel outcomes strategy format targetSize
          = ExtremeResult.fallback (standardCompressionMethod format))
    ∧ (format ∈ ["jpeg", "jpg", "webp", "avif"] →
        standardCompressionMethod format = StandardMethod.binarySearch) := by
  have hmemS : ∀ u : StrategyOutcome,
      u ∈ outcomes.filter (fun o => o.success && decide (o.size ≤ targetSize))
        ↔ u ∈ outcomes ∧ u.success = true ∧ u.size ≤ targetSize := by
    intro u
    simp [List.mem_filter]
  refine ⟨?_, ?_, ?_, ?_⟩
  · unfold compressToTargetSizePath
    rw [if_pos hrlow]
  · intro hex
    obtain ⟨o, ho, hos, hot⟩ := hex
    have hSne : outcomes.filter (fun o => o.success && decide (o.size ≤ targetSize)) ≠ [] :=
      List.ne_nil_of_mem ((hmemS o).mpr ⟨ho, hos, hot⟩)
    have hperm : List.Perm (successfulSorted outcomes targetSize)
        (outcomes.filter (fun o => o.success && decide (o.size ≤ targetSize))) :=
      List.perm_insertionSort _ _
    have hsortne : successfulSorted outcomes targetSize ≠ [] := by
      intro hcon
      rw [hcon] at hperm
      exact hSne hperm.nil_eq.symm
    have hmin := insertionSort_headI_min StrategyOutcome.size
      (outcomes.filter (fun o => o.success && decide (o.size ≤ targetSize))) hSne
    have hfast := insertionSort_headI_min StrategyOutcome.processingTime
      (successfulSorted outcomes targetSize) hsortne
    have hqual := insertionSort_headI_max StrategyOutcome.size
      (successfulSorted outcomes targetSize) hsortne
    have hmemSorted : ∀ u : StrategyOutcome,
        u ∈ outcomes ∧ u.success = true ∧ u.size ≤ targetSize →
        u ∈ successfulSorted outcomes targetSize := by
      intro u hu
      exact hperm.mem_iff.mpr ((hmemS u).mpr hu)
    rw [extremeCompressionParallel_eq_chosen outcomes strategy format targetSize hsortne]
    have hchosenS : selectBestResult (successfulSorted outcomes targetSize) strategy targetSize
        ∈ outcomes.filter (fun o => o.success && decide (o.size ≤ targetSize)) := by
      simp only [selectBestResult]
      by_cases h1 : strategy = "size"
      · rw [if_pos h1]
        exact hmin.1
      · rw [if_neg h1]
        by_cases h2 : strategy = "speed"
        · rw [if_pos h2]
          exact hperm.subset hfast.1
        · rw [if_neg h2]
          by_cases h3 : strategy = "quality"
          · rw [if_pos h3]
            exact hperm.subset hqual.1
          · rw [if_neg h3]
            by_cases h4 : ((List.insertionSort (fun a b : StrategyOutcome => b.size ≤ a.size)
                (successfulSorted outcomes targetSize)).headI.size : ℚ)
                / (targetSize : ℚ) * 100 ≤ 95
            · rw [if_pos h4]
              exact hperm.subset hqual.1
            · rw [if_neg h4]
              exact hmin.1
    have hchosenProps := (hmemS _).mp hchosenS
    refine ⟨selectBestResult (successfulSorted outcomes targetSize) strategy targetSize,
      rfl, hchosenProps.1, hchosenProps.2.1, hchosenProps.2.2, ?_, ?_, ?_, ?_⟩
    · intro hstrat
      subst hstrat
      have hsel : selectBestResult (successfulSorted outcomes targetSize) ("size") targetSize
          = (successfulSorted outcomes targetSize).headI := by
        simp only [selectBestResult, if_true]
      intro u hu hus hut
      rw [hsel]
      exact hmin.2 u ((hmemS u).mpr ⟨hu, hus, hut⟩)
    · intro hstrat
      subst hstrat
      have hsel : selectBestResult (successfulSorted outcomes targetSize) ("speed") targetSize
          = (List.insertionSort (fun a b : StrategyOutcome => a.processingTime ≤ b.processingTime)
              (successfulSorted outcomes targetSize)).headI := by
        simp only [selectBestResult]
        rw [if_neg (by decide), if_true]
      intro u hu hus hut
      rw [hsel]
      exact hfast.2 u (hmemSorted u ⟨hu, hus, hut⟩)
    · intro hstrat
      subst hstrat
      have hsel : selectBestResult (successfulSorted outcomes targetSize) ("quality") targetSize
          = (List.insertionSort (fun a b : StrategyOutcome => b.size ≤ a.size)
              (successfulSorted outcomes targetSize)).headI := by
        simp only [selectBestResult]
        rw [if_neg (by decide), if_neg (by decide), if_true]
      intro u hu hus hut
      rw [hsel]
      exact hqual.2 u (hmemSorted u ⟨hu, hus, hut⟩)
    · intro hstrat
      subst hstrat
      set bq := (List.insertionSort (fun a b : StrategyOutcome => b.size ≤ a.size)
          (successfulSorted outcomes targetSize)).headI with hbq
      have hmq : maxQualSize outcomes targetSize = bq.size := by
        unfold maxQualSize
        apply foldr_max_eq
        · exact List.mem_map_of_mem _ (hperm.subset hqual.1)
        · intro y hy
          obtain ⟨u, hu, rfl⟩ := List.mem_map.mp hy
          exact hqual.2 u (hperm.mem_iff.mpr hu)
      have hq0 : (0 : ℚ) < (targetSize : ℚ) := by exact_mod_cast htgt
      have hiff : ((bq.size : ℚ) / (targetSize : ℚ) * 100 ≤ 95)
          ↔ 100 * bq.size ≤ 95 * targetSize := by
        rw [div_mul_eq_mul_div, div_le_iff₀ hq0]
        constructor
        · intro h
          have h' : (100 : ℚ) * (bq.size : ℚ) ≤ 95 * (targetSize : ℚ) := by linarith
          exact_mod_cast h'
        · intro h
          have h' : (100 : ℚ) * (bq.size : ℚ) ≤ 95 * (targetSize : ℚ) := by exact_mod_cast h
          linarith
      have hsel : selectBestResult (successfulSorted outcomes targetSize) ("auto") targetSize
          = if (bq.size : ℚ) / (targetSize : ℚ) * 100 ≤ 95 then bq
            else (successfulSorted outcomes targetSize).headI := by
        simp only [selectBestResult]
        rw [if_neg (by decide), if_neg (by decide), if_neg (by decide)]
      constructor
      · intro hle u hu hus hut
        rw [hmq] at hle
        rw [hsel, if_pos (hiff.mpr hle)]
        exact hqual.2 u (hmemSorted u ⟨hu, hus, hut⟩)
      · intro hgt u hu hus hut
        rw [hmq] at hgt
        rw [hsel, if_neg (fun hcon => absurd (hiff.mp hcon) (by omega))]
        exact hmin.2 u ((hmemS u).mpr ⟨hu, hus, hut⟩)
  · intro hall
    have hfilter : outcomes.filter (fun o => o.success && decide (o.size ≤ targetSize)) = [] := by
      rw [List.filter_eq_nil_iff]
      intro o ho
      simp only [Bool.and_eq_true, decide_eq_true_eq, not_and]
      intro hs ht
      exact hall o ho ⟨hs, ht⟩
    have hsortnil : successfulSorted outcomes targetSize = [] := by
      unfold successfulSorted
      rw [hfilter]
      rfl
    exact extremeCompressionParallel_eq_fallback outcomes strategy format targetSize hsortnil
  · intro hf
    unfold standardCompressionMethod
    rw [if_pos hf]

/-- C5 witness: three successful catalog outcomes against a 50-byte budget
on a 1000-byte original (ratio 0.05): the `size` policy routes through the
extreme path and picks an under-budget outcome. -/
theorem c5_extreme_selection_witness :
    compressToTargetSizePath 1000 50 = TargetPath.extreme
    ∧ ∃ chosen,
        extremeCompressionParallel
          [{ strategyId := 1, size := 40, processingTime := 7, success := true },
           { strategyId := 2, size := 30, processingTime := 3, success := true },
           { strategyId := 3, size := 60, processingTime := 1, success := true }]
          ("size") ("webp") 50 = ExtremeResult.chosen chosen
        ∧ chosen.success = true ∧ chosen.size ≤ 50 := by
  have h := c5_extreme_selection
    [{ strategyId := 1, size := 40, processingTime := 7, success := true },
     { strategyId := 2, size := 30, processingTime := 3, success := true },
     { strategyId := 3, size := 60, processingTime := 1, success := true }]
    ("size") ("webp") 1000 50 (by norm_num) (by norm_num)
  refine ⟨h.1, ?_⟩
  obtain ⟨chosen, hch, _, hsucc, hsz, _⟩ := h.2.1
    ⟨{ strategyId := 1, size := 40, processingTime := 7, success := true },
      by decide, by decide, by decide⟩
  exact ⟨chosen, hch, hsucc, hsz⟩

/-- C5 counterexample: with a forced PNG format and no qualifying catalog
outcome, the extreme path falls back to the standard path's PNG
configuration ladder, not to the binary-search path — refuting the
unconditional "falls back to the standard binary-search path". -/
theorem c5_extreme_fallback_counterexample :
    extremeCompressionParallel [] ("auto") ("png") 100
        = ExtremeResult.fallback StandardMethod.pngLadder
    ∧ StandardMethod.pngLadder ≠ StandardMethod.binarySearch := by
  constructor
  · rfl
  · intro hcon
    cases hcon

theorem findBestFormat_eq (hasAlpha : Bool) (quality originalSize : Nat)
    (enc : ImgFormat → Option Nat) :
    findBestFormat hasAlpha quality originalSize enc
      = (match List.insertionSort (fun a b : FormatResult => a.size.getD 0 ≤ b.size.getD 0)
            (((findBestFormatCandidates hasAlpha quality).map fun f =>
                ({ format := f, size := enc f } : FormatResult)).filter
              (formatQualifies originalSize)) with
         | best :: _ => best
         | [] => ((findBestFormatCandidates hasAlpha quality).map fun f =>
              ({ format := f, size := enc f } : FormatResult)).headI) := rfl

theorem formatQualifies_true_iff (originalSize : Nat) (r : FormatResult) :
    formatQualifies originalSize r = true
      ↔ ∃ s, r.size = some s ∧ (s : ℚ) < (originalSize : ℚ) * (95 / 100) := by
  cases hr : r.size with
  | none => simp [formatQualifies, hr]
  | some s => simp [formatQualifies, hr]

/-- C6 (amended).  With no target size and format `auto`, `findBestFormat`
races AVIF and WebP always, JPEG only when the image has no alpha channel,
and PNG only when it has alpha or the requested quality exceeds 90; it
selects the smallest result that is STRICTLY more than 5% smaller than the
original size (`size < originalSize * 0.95`; a result exactly 5% smaller
does not qualify — see the counterexample), and when no candidate
qualifies it falls back to the first candidate evaluated, the AVIF one. -/
theorem c6_auto_format_selection (hasAlpha : Bool) (quality originalSize : Nat)
    (enc : ImgFormat → Option Nat) :
    (ImgFormat.avif ∈ findBestFormatCandidates hasAlpha quality
      ∧ ImgFormat.webp ∈ findBestFormatCandidates hasAlpha quality)
    ∧ (ImgFormat.jpeg ∈ findBestFormatCandidates hasAlpha quality ↔ hasAlpha = false)
    ∧ (ImgFormat.png ∈ findBestFormatCandidates hasAlpha quality
        ↔ (hasAlpha = true ∨ 90 < quality))
    ∧ ((∃ f ∈ findBestFormatCandidates hasAlpha quality, ∃ s, enc f = some s
          ∧ (s : ℚ) < (originalSize : ℚ) * (95 / 100)) →
        ∃ f s, findBestFormat hasAlpha quality originalSize enc
            = { format := f, size := some s }
          ∧ f ∈ findBestFormatCandidates hasAlpha quality
          ∧ enc f = some s
          ∧ (s : ℚ) < (originalSize : ℚ) * (95 / 100)
          ∧ ∀ g ∈ findBestFormatCandidates hasAlpha quality, ∀ t, enc g = some t →
              (t : ℚ) < (originalSize : ℚ) * (95 / 100) → s ≤ t)
    ∧ ((∀ f ∈ findBestFormatCandidates hasAlpha quality, ∀ s, enc f = some s →
          ¬ ((s : ℚ) < (originalSize : ℚ) * (95 / 100))) →
        findBestFormat hasAlpha quality originalSize enc
          = { format := ImgFormat.avif, size := enc ImgFormat.avif }) := by
  refine ⟨?_, ?_, ?_, ?_, ?_⟩
  · constructor <;> simp [findBestFormatCandidates]
  · cases hasAlpha <;> simp [findBestFormatCandidates]
  · cases hasAlpha <;> by_cases hq : 90 < quality <;> simp [findBestFormatCandidates, hq]
  · intro hex
    obtain ⟨f, hf, s, hs, hlt⟩ := hex
    have hqmem : ({ format := f, size := enc f } : FormatResult)
        ∈ ((findBestFormatCandidates hasAlpha quality).map fun g =>
            ({ format := g, size := enc g } : FormatResult)).filter
          (formatQualifies originalSize) := by
      rw [List.mem_filter]
      refine ⟨List.mem_map_of_mem _ hf, ?_⟩
      rw [formatQualifies_true_iff]
      exact ⟨s, by simpa using hs, hlt⟩
    have hqne : (((findBestFormatCandidates hasAlpha quality).map fun g =>
        ({ format := g, size := enc g } : FormatResult)).filter
          (formatQualifies originalSize)) ≠ [] :=
      List.ne_nil_of_mem hqmem
    have hperm := List.perm_insertionSort
      (fun a b : FormatResult => a.size.getD 0 ≤ b.size.getD 0)
      (((findBestFormatCandidates hasAlpha quality).map fun g =>
          ({ format := g, size := enc g } : FormatResult)).filter
        (formatQualifies originalSize))
    have hmin := insertionSort_headI_min (fun r : FormatResult => r.size.getD 0)
      (((findBestFormatCandidates hasAlpha quality).map fun g =>
          ({ format := g, size := enc g } : FormatResult)).filter
        (formatQualifies originalSize))
      hqne
    rw [findBestFormat_eq]
    cases hsort : List.insertionSort (fun a b : FormatResult => a.size.getD 0 ≤ b.size.getD 0)
        (((findBestFormatCandidates hasAlpha quality).map fun g =>
            ({ format := g, size := enc g } : FormatResult)).filter
          (formatQualifies originalSize)) with
    | nil =>
      rw [hsort] at hperm
      exact absurd hperm.nil_eq.symm hqne
    | cons best rest =>
      rw [hsort] at hperm hmin
      simp only [List.headI] at hmin
      have hbest_mem := hperm.subset (List.mem_cons_self best rest)
      obtain ⟨hbm, hbq⟩ := List.mem_filter.mp hbest_mem
      obtain ⟨g, hg, hbeq⟩ := List.mem_map.mp hbm
      obtain ⟨t, hbt, htlt⟩ := (formatQualifies_true_iff _ _).mp hbq
      subst hbeq
      simp only at hbt
      refine ⟨g, t, ?_, hg, hbt, htlt, ?_⟩
      · rw [hbt]
      · intro g' hg' t' ht' hlt'
        have hx : ({ format := g', size := enc g' } : FormatResult)
            ∈ ((findBestFormatCandidates hasAlpha quality).map fun g =>
                ({ format := g, size := enc g } : FormatResult)).filter
              (formatQualifies originalSize) := by
          rw [List.mem_filter]
          refine ⟨List.mem_map_of_mem _ hg', ?_⟩
          rw [formatQualifies_true_iff]
          exact ⟨t', by simpa using ht', hlt'⟩
        have hle := hmin.2 _ hx
        simpa [hbt, ht'] using hle
  · intro hall
    have hfilter : (((findBestFormatCandidates hasAlpha quality).map fun g =>
        ({ format := g, size := enc g } : FormatResult)).filter
          (formatQualifies originalSize)) = [] := by
      rw [List.filter_eq_nil_iff]
      intro r hr
      obtain ⟨g, hg, rfl⟩ := List.mem_map.mp hr
      intro hq
      obtain ⟨s, hs, hlt⟩ := (formatQualifies_true_iff _ _).mp hq
      exact hall g hg s (by simpa using hs) hlt
    rw [findBestFormat_eq, hfilter]
    rfl

/-- C6 witness: with no-alpha, quality 85 and candidates at 50/80/90 bytes
against a 100-byte original, the race selects a qualifying smallest
candidate per the amended rule. -/
theorem c6_auto_format_selection_witness :
    ∃ f s, findBestFormat false 85 100 c6FitEnc = { format := f, size := some s }
      ∧ f ∈ findBestFormatCandidates false 85
      ∧ c6FitEnc f = some s
      ∧ (s : ℚ) < (100 : ℚ) * (95 / 100)
      ∧ ∀ g ∈ findBestFormatCandidates false 85, ∀ t, c6FitEnc g = some t →
          (t : ℚ) < (100 : ℚ) * (95 / 100) → s ≤ t :=
  (c6_auto_format_selection false 85 100 c6FitEnc).2.2.2.1
    ⟨ImgFormat.avif, by simp [findBestFormatCandidates], 50, rfl, by norm_num⟩

/-- C6 counterexample: against a 100-byte original the WebP candidate comes
out at exactly 95 bytes — exactly 5% smaller, hence "at least 5% smaller" —
yet the race selects the fallback AVIF result of 98 bytes, because the
source's filter demands `size < originalSize * 0.95` strictly.  The claim's
"at least 5% smaller" selection rule is therefore false as stated. -/
theorem c6_auto_format_counterexample :
    findBestFormat false 85 100 c6ProbeEnc = { format := ImgFormat.avif, size := some 98 }
    ∧ c6ProbeEnc ImgFormat.webp = some 95
    ∧ ImgFormat.webp ∈ findBestFormatCandidates false 85
    ∧ (95 : ℚ) ≤ (100 : ℚ) * (95 / 100)
    ∧ ¬ ((98 : ℚ) ≤ (100 : ℚ) * (95 / 100)) := by
  have h98 : ¬ ((98 : ℚ) < (100 : ℚ) * (95 / 100)) := by norm_num
  have h95 : ¬ ((95 : ℚ) < (100 : ℚ) * (95 / 100)) := by norm_num
  have h99 : ¬ ((99 : ℚ) < (100 : ℚ) * (95 / 100)) := by norm_num
  have hfilter : (((findBestFormatCandidates false 85).map fun g =>
      ({ format := g, size := c6ProbeEnc g } : FormatResult)).filter
        (formatQualifies 100)) = [] := by
    simp [findBestFormatCandidates, formatQualifies, c6ProbeEnc, h98, h95, h99]
  refine ⟨?_, rfl, by simp [findBestFormatCandidates], by norm_num, by norm_num⟩
  rw [findBestFormat_eq, hfilter]
  rfl

theorem processChunkGo_eq (compressFn : String → Except String CompressOutcome) :
    ∀ (tasks : List String) (acc : List ItemResult),
      processChunkGo compressFn tasks acc
        = tasks.map (itemMessageOf compressFn)
            ++ [WorkerMessage.complete (acc ++ tasks.map (itemResultOf compressFn))] := by
  intro tasks
  induction tasks with
  | nil => intro acc; simp [processChunkGo]
  | cons t ts ih =>
    intro acc
    cases hc : compressFn t with
    | ok r =>
      simp [processChunkGo, hc, ih, itemMessageOf, itemResultOf]
    | error e =>
      simp [processChunkGo, hc, ih, itemMessageOf, itemResultOf]

theorem foldl_handleMessage_item_msgs (compressFn : String → Except String CompressOutcome) :
    ∀ (tasks : List String) (acc : BatchResult),
      (tasks.map (itemMessageOf compressFn)).foldl handleMessage acc
        = { acc with errors := acc.errors ++ tasks.filterMap (fun u =>
            match compressFn u with
            | .ok _ => none
            | .error e => some { file := u, error := e }) } := by
  intro tasks
  induction tasks with
  | nil => intro acc; simp
  | cons t ts ih =>
    intro acc
    cases hc : compressFn t with
    | ok r => simp [itemMessageOf, hc, handleMessage, ih, List.filterMap_cons]
    | error e => simp [itemMessageOf, hc, handleMessage, ih, List.filterMap_cons]

theorem foldl_handleCompleteItem_errors :
    ∀ (items : List ItemResult) (acc : BatchResult),
      (items.foldl handleCompleteItem acc).errors = acc.errors := by
  intro items
  induction items with
  | nil => intro acc; simp
  | cons it its ih =>
    intro acc
    cases it with
    | ok f res => simp [handleCompleteItem, ih]
    | fail f e => simp [handleCompleteItem, ih]

theorem foldl_handleCompleteItem_processed :
    ∀ (items : List ItemResult) (acc : BatchResult),
      (items.foldl handleCompleteItem acc).processed
        = acc.processed + (items.countP fun it =>
            match it with
            | .ok _ _ => true
            | .fail _ _ => false) := by
  intro items
  induction items with
  | nil => intro acc; simp
  | cons it its ih =>
    intro acc
    cases it with
    | ok f res => simp [handleCompleteItem, ih, List.countP_cons]; omega
    | fail f e => simp [handleCompleteItem, ih, List.countP_cons]

/-- C8.  Within a worker chunk, a failing item is caught locally and turned
into an `error` message; every item still gets its entry, the terminal
`complete` message is still posted and carries every successful item's
result while the failed item appears in the pool's batch error list, and
the batch continues: `processed` counts exactly the successful items. -/
theorem c8_worker_error_isolation (tasks : List String)
    (compressFn : String → Except String CompressOutcome)
    (t e : String) (ht : t ∈ tasks) (he : compressFn t = .error e) :
    WorkerMessage.error t e ∈ processChunk tasks compressFn
    ∧ (processChunk tasks compressFn).getLast?
        = some (WorkerMessage.complete (tasks.map (itemResultOf compressFn)))
    ∧ ItemResult.fail t e ∈ tasks.map (itemResultOf compressFn)
    ∧ (∀ u ∈ tasks, ∀ r, compressFn u = .ok r →
        ItemResult.ok u r ∈ tasks.map (itemResultOf compressFn))
    ∧ ({ file := t, error := e } : ThreadError)
        ∈ (runWorkerBatch tasks compressFn).errors
    ∧ (runWorkerBatch tasks compressFn).processed
        = (tasks.filter (compressSucceeds compressFn)).length := by
  have hchunk : processChunk tasks compressFn
      = tasks.map (itemMessageOf compressFn)
          ++ [WorkerMessage.complete (tasks.map (itemResultOf compressFn))] := by
    rw [processChunk, processChunkGo_eq]
    simp
  have hbatch : runWorkerBatch tasks compressFn
      = ((tasks.map (itemMessageOf compressFn)).foldl handleMessage
          emptyBatchResult |> fun acc =>
            (tasks.map (itemResultOf compressFn)).foldl handleCompleteItem acc) := by
    rw [runWorkerBatch, hchunk, List.foldl_append]
    rfl
  refine ⟨?_, ?_, ?_, ?_, ?_, ?_⟩
  · rw [hchunk]
    refine List.mem_append_left _ ?_
    have : itemMessageOf compressFn t = WorkerMessage.error t e := by
      simp [itemMessageOf, he]
    exact this ▸ List.mem_map_of_mem _ ht
  · rw [hchunk, List.getLast?_concat]
  · have : itemResultOf compressFn t = ItemResult.fail t e := by
      simp [itemResultOf, he]
    exact this ▸ List.mem_map_of_mem _ ht
  · intro u hu r hr
    have : itemResultOf compressFn u = ItemResult.ok u r := by
      simp [itemResultOf, hr]
    exact this ▸ List.mem_map_of_mem _ hu
  · rw [hbatch]
    simp only [foldl_handleCompleteItem_errors, foldl_handleMessage_item_msgs]
    simp only [emptyBatchResult, List.nil_append]
    rw [List.mem_filterMap]
    exact ⟨t, ht, by simp [he]⟩
  · rw [hbatch]
    simp only [foldl_handleCompleteItem_processed, foldl_handleMessage_item_msgs]
    simp only [emptyBatchResult, Nat.zero_add]
    rw [List.countP_map, ← List.countP_eq_length_filter]
    apply List.countP_congr
    intro u _
    cases hu : compressFn u with
    | ok r => simp [Function.comp, itemResultOf, hu, compressSucceeds]
    | error e' => simp [Function.comp, itemResultOf, hu, compressSucceeds]

/-- C8 witness: a two-task chunk where task `a` fails and task `b`
succeeds — the error message is posted, `a` lands in the batch error list,
and `processed` still counts `b`. -/
theorem c8_worker_error_isolation_witness :
    WorkerMessage.error ("a") ("boom") ∈ processChunk [("a"), ("b")] c8ProbeCompress
    ∧ ({ file := "a", error := "boom" } : ThreadError)
        ∈ (runWorkerBatch [("a"), ("b")] c8ProbeCompress).errors
    ∧ (runWorkerBatch [("a"), ("b")] c8ProbeCompress).processed
        = ([("a"), ("b")].filter (compressSucceeds c8ProbeCompress)).length :=
  ⟨(c8_worker_error_isolation [("a"), ("b")] c8ProbeCompress ("a") ("boom")
      (by decide) rfl).1,
   (c8_worker_error_isolation [("a"), ("b")] c8ProbeCompress ("a") ("boom")
      (by decide) rfl).2.2.2.2.1,
   (c8_worker_error_isolation [("a"), ("b")] c8ProbeCompress ("a") ("boom")
      (by decide) rfl).2.2.2.2.2⟩

/-- C9.  With a malformed (nonempty) target-size string, or with a byte
budget at or above the single resolved file's original size, the `compress`
prologue raises an error before any compression work starts: the result is
an error, and it is the same error whatever the `work` continuation is —
the work is never consulted. -/
theorem c9_target_validation (opts : CompressOptionsModel)
    (resolvedFiles : List (String × Nat))
    (work₁ work₂ : List (String × Nat) → BatchResult) :
    (∀ s, opts.targetSize = some s → s.isEmpty = false → parseTargetSize s = none →
      ∃ err, compress opts resolvedFiles work₁ = Except.error err
        ∧ compress opts resolvedFiles work₂ = Except.error err)
    ∧ (∀ s b f size, opts.targetSize = some s → s.isEmpty = false →
        parseTargetSize s = some b → resolvedFiles = [(f, size)] → size ≤ b →
      ∃ err, compress opts resolvedFiles work₁ = Except.error err
        ∧ compress opts resolvedFiles work₂ = Except.error err) := by
  constructor
  · intro s hs hse hparse
    cases hqv : (match opts.quality with
        | some q => decide (q < 1) || decide (100 < q)
        | none => false) with
    | true =>
      exact ⟨.invalidQuality, by simp [compress, hqv], by simp [compress, hqv]⟩
    | false =>
      cases htv : (match opts.threads with
          | some t => decide (t < 1)
          | none => false) with
      | true =>
        exact ⟨.invalidThreads, by simp [compress, hqv, htv], by simp [compress, hqv, htv]⟩
      | false =>
        have h3 : (match opts.targetSize with
            | some s' => !s'.isEmpty && (parseTargetSize s').isNone
            | none => false) = true := by
          rw [hs]
          simp [hse, hparse]
        exact ⟨.invalidTargetSize, by simp [compress, hqv, htv, h3],
          by simp [compress, hqv, htv, h3]⟩
  · intro s b f size hs hse hparse hfiles hsize
    subst hfiles
    cases hqv : (match opts.quality with
        | some q => decide (q < 1) || decide (100 < q)
        | none => false) with
    | true =>
      exact ⟨.invalidQuality, by simp [compress, hqv], by simp [compress, hqv]⟩
    | false =>
      cases htv : (match opts.threads with
          | some t => decide (t < 1)
          | none => false) with
      | true =>
        exact ⟨.invalidThreads, by simp [compress, hqv, htv], by simp [compress, hqv, htv]⟩
      | false =>
        have h3 : (match opts.targetSize with
            | some s' => !s'.isEmpty && (parseTargetSize s').isNone
            | none => false) = false := by
          rw [hs]
          simp [hparse]
        have hval : validateSingleFileTarget size s = Except.error CompressError.targetNotSmaller := by
          unfold validateSingleFileTarget
          rw [hparse]
          simp [hsize]
        refine ⟨.targetNotSmaller, ?_, ?_⟩ <;>
          simp [compress, hqv, htv, h3, hs, hse, hval, hparse]

/-- C9 witness: the malformed target `12X` and the unreachable 5 KiB
budget on a 100-byte file both raise before any work, independently of the
work continuation. -/
theorem c9_target_validation_witness :
    (∃ err, compress { quality := none, threads := none, targetSize := some ("12X") }
        [("f", 100)] (fun _ => emptyBatchResult) = Except.error err
      ∧ compress { quality := none, threads := none, targetSize := some ("12X") }
        [("f", 100)] (fun _ => { emptyBatchResult with processed := 7 }) = Except.error err)
    ∧ (∃ err, compress { quality := none, threads := none, targetSize := some ("5KB") }
        [("f", 100)] (fun _ => emptyBatchResult) = Except.error err
      ∧ compress { quality := none, threads := none, targetSize := some ("5KB") }
        [("f", 100)] (fun _ => { emptyBatchResult with processed := 7 }) = Except.error err) :=
  ⟨(c9_target_validation { quality := none, threads := none, targetSize := some ("12X") }
      [("f", 100)] (fun _ => emptyBatchResult)
      (fun _ => { emptyBatchResult with processed := 7 })).1
      ("12X") rfl rfl (by decide),
   (c9_target_validation { quality := none, threads := none, targetSize := some ("5KB") }
      [("f", 100)] (fun _ => emptyBatchResult)
      (fun _ => { emptyBatchResult with processed := 7 })).2
      ("5KB") 5120 ("f") 100 rfl rfl (by decide) rfl (by decide)⟩
